import Mathlib

/-!
Verification development for the docgest ingestion service.

Go strings are modelled as `List Char`; Go `int` values as `Int` (with
explicit two's-complement wrapping where 64-bit overflow matters) or as `Nat`
where the source guarantees non-negativity; Go `float64` fact fields as `ℚ`.
Multiplications/divisions by the float constant `1.33` in the source are
modelled as exact rational arithmetic `* 133 / 100` (truncating); for every
word count reachable here (far below 2^40) the binary64 computation
`int(float64(w) * 1.33)` and `int(float64(t) / 1.33)` agree with that exact
truncation, because the fractional part of `w*133/100` is a multiple of 1/100
(resp. 1/133) and the accumulated float error is below 10^-10.
Unicode-aware case folding and space classification are modelled on the ASCII
range, which is closed under every transformation appearing below.
-/

set_option maxHeartbeats 1000000

namespace Docgest

/-- Shorthand turning a string literal into the `List Char` model. -/
def s2l (s : String) : List Char := s.toList

/-- `unicode.IsSpace` restricted to ASCII, as used by `strings.Fields` and
`strings.TrimSpace`. -/
def goIsSpace (c : Char) : Bool :=
  c = ' ' || c = '\t' || c = '\n' || c = (Char.ofNat 11) || c = (Char.ofNat 12) || c = '\r'

/-- The RE2 character class `\s` = `[\t\n\f\r ]` used by the injection and
code-fence regexps (narrower than `unicode.IsSpace`: no vertical tab). -/
def reIsSpace (c : Char) : Bool :=
  c = ' ' || c = '\t' || c = '\n' || c = (Char.ofNat 12) || c = '\r'

/-- `strings.TrimSpace`: drop leading and trailing whitespace. -/
def trimSpace (s : List Char) : List Char :=
  ((s.dropWhile goIsSpace).reverse.dropWhile goIsSpace).reverse

theorem length_dropWhile_le (p : α → Bool) (l : List α) :
    (l.dropWhile p).length ≤ l.length := by
  induction l with
  | nil => simp [List.dropWhile]
  | cons a l ih =>
    rw [List.dropWhile_cons]
    split
    · exact Nat.le_succ_of_le ih
    · simp

/-- Accumulator loop for `strings.Fields`; `cur` holds the current word in
reverse. -/
def fieldsGo (cur : List Char) : List Char → List (List Char)
  | [] => if cur = [] then [] else [cur.reverse]
  | c :: cs =>
    if goIsSpace c then
      if cur = [] then fieldsGo [] cs else cur.reverse :: fieldsGo [] cs
    else fieldsGo (c :: cur) cs

/-- `strings.Fields`: split around maximal runs of whitespace. -/
def fields (s : List Char) : List (List Char) := fieldsGo [] s

/-- `len(strings.Fields(s))`, the word count the token estimator is built on. -/
def wc (s : List Char) : Nat := (fields s).length

/-- `strings.Join(words, " ")`. -/
def joinSpace : List (List Char) → List Char
  | [] => []
  | [w] => w
  | w :: ws => w ++ ' ' :: joinSpace ws

/-- `chunker.EstimateTokens` (estimator file, lines 7-19): word count times
1.33, truncated, clamped up to 1 for non-empty input. -/
def estimateTokens (text : List Char) : Nat :=
  if text = [] then 0
  else
    let words := wc text
    let tokens := words * 133 / 100
    if tokens < 1 then 1 else tokens

/-! ## Chunker (chunker package) -/

/-- `strings.Split(text, "\n\n")`: leftmost, non-overlapping. -/
def splitOnNN : List Char → List (List Char)
  | [] => [[]]
  | '\n' :: '\n' :: rest => [] :: splitOnNN rest
  | c :: cs =>
    match splitOnNN cs with
    | [] => [[c]]
    | p :: ps => (c :: p) :: ps

/-- `chunker.splitByParagraphs`: split on double newlines, trim, drop empties. -/
def splitByParagraphs (text : List Char) : List (List Char) :=
  ((splitOnNN text).map trimSpace).filter (fun p => !p.isEmpty)

/-- Loop body of `chunker.splitSentences`: a sentence ends at '.', '!' or '?'
immediately followed by a space. -/
def splitSentencesGo (cur : List Char) : List Char → List (List Char)
  | [] => if cur = [] then [] else [trimSpace cur]
  | c :: rest =>
    let cur1 := cur ++ [c]
    if (c = '.' || c = '!' || c = '?') &&
        (match rest with | ' ' :: _ => true | _ => false) then
      trimSpace cur1 :: splitSentencesGo [] rest
    else
      splitSentencesGo cur1 rest

/-- `chunker.splitSentences`. -/
def splitSentences (text : List Char) : List (List Char) :=
  splitSentencesGo [] text

/-- `chunker.getOverlapText`: last `targetTokens/1.33` words, space-joined. -/
def getOverlapText (text : List Char) (targetTokens : Nat) : List Char :=
  let words := fields text
  let targetWords := targetTokens * 100 / 133
  if targetWords = 0 || words.length ≤ targetWords then []
  else joinSpace (words.drop (words.length - targetWords))

/-- Greedy accumulation loop of `chunker.splitBySentences` over the sentence
list, carrying the builder contents and its running token estimate.  In the
flush branch the source resets `currentTokens` to 0 and only assigns
`EstimateTokens(overlap)` when the overlap is non-empty; since
`estimateTokens [] = 0` the two coincide. -/
def sentGo (target overlap : Nat) : List (List Char) → List Char → Nat → List (List Char)
  | [], cur, curTok => if 0 < curTok then [cur] else []
  | sent :: rest, cur, curTok =>
    let sentTok := estimateTokens sent
    if target < curTok + sentTok ∧ 0 < curTok then
      let ov := getOverlapText cur overlap
      let cur2 := if ov = [] then sent else ov ++ ' ' :: sent
      cur :: sentGo target overlap rest cur2 (estimateTokens ov + sentTok)
    else
      let cur2 := if cur = [] then sent else cur ++ ' ' :: sent
      sentGo target overlap rest cur2 (curTok + sentTok)

/-- `chunker.splitBySentences` (chunker file, lines 165-198). -/
def splitBySentences (text : List Char) (target overlap : Nat) : List (List Char) :=
  sentGo target overlap (splitSentences text) [] 0

/-- Greedy paragraph loop of `chunker.splitText`; oversized paragraphs are
flushed around and re-split by sentences, paragraph glue is `"\n\n"`. -/
def paraGo (target overlap : Nat) : List (List Char) → List Char → Nat → List (List Char)
  | [], cur, curTok => if 0 < curTok then [cur] else []
  | para :: rest, cur, curTok =>
    let paraTok := estimateTokens para
    if target < paraTok then
      (if 0 < curTok then [cur] else []) ++ splitBySentences para target overlap ++
        paraGo target overlap rest [] 0
    else if target < curTok + paraTok ∧ 0 < curTok then
      let ov := getOverlapText cur overlap
      let cur2 := if ov = [] then para else ov ++ '\n' :: '\n' :: para
      cur :: paraGo target overlap rest cur2 (estimateTokens ov + paraTok)
    else
      let cur2 := if cur = [] then para else cur ++ '\n' :: '\n' :: para
      paraGo target overlap rest cur2 (curTok + paraTok)

/-- `chunker.splitText` (chunker file, lines 98-149). -/
def splitText (text : List Char) (target overlap : Nat) : List (List Char) :=
  paraGo target overlap (splitByParagraphs text) [] 0

/-- `doctree.DocNode`: title, text, page, ordered children. -/
inductive DocNode where
  | mk (title : List Char) (text : List Char) (page : Int) (children : List DocNode)

def DocNode.title : DocNode → List Char
  | .mk t _ _ _ => t

def DocNode.text : DocNode → List Char
  | .mk _ t _ _ => t

def DocNode.page : DocNode → Int
  | .mk _ _ p _ => p

def DocNode.children : DocNode → List DocNode
  | .mk _ _ _ c => c

/-- `doctree.DocTree`. -/
structure DocTree where
  title : List Char
  children : List DocNode

/-- `doctree.Chunk`. -/
structure Chunk where
  text : List Char
  index : Nat
  breadcrumb : List (List Char)
  pageStart : Int
  pageEnd : Int
deriving DecidableEq

/-- `chunker.Config` (Go ints). -/
structure ChunkConfig where
  chunkSize : Int
  chunkOverlap : Int
  minChunk : Int
deriving DecidableEq

/-- Zero/negative-field fallback performed at the top of `chunker.ChunkTree`. -/
def normChunkSize (c : ChunkConfig) : Nat :=
  (if c.chunkSize ≤ 0 then 1500 else c.chunkSize).toNat

def normChunkOverlap (c : ChunkConfig) : Nat :=
  (if c.chunkOverlap ≤ 0 then 200 else c.chunkOverlap).toNat

def normMinChunk (c : ChunkConfig) : Nat :=
  (if c.minChunk ≤ 0 then 100 else c.minChunk).toNat

/-- The per-part emission loop inside `chunker.walkNode` (split case): parts
whose estimate reaches `minChunk` become chunks, the shared index counter
advances only on emission. -/
def emitParts (minChunk : Nat) (bc : List (List Char)) (page : Int) :
    List (List Char) → Nat → List Chunk × Nat
  | [], idx => ([], idx)
  | part :: rest, idx =>
    if minChunk ≤ estimateTokens part then
      ((⟨part, idx, bc, page, page⟩ : Chunk) :: (emitParts minChunk bc page rest (idx + 1)).1,
        (emitParts minChunk bc page rest (idx + 1)).2)
    else
      emitParts minChunk bc page rest idx

mutual

/-- `chunker.walkNode` (chunker file, lines 48-95): extend the breadcrumb,
emit this node's chunks, then recurse into the children. -/
def walkNode (target overlap minChunk : Nat) (node : DocNode)
    (breadcrumb : List (List Char)) (index : Nat) : List Chunk × Nat :=
  match node with
  | .mk title text page children =>
    let bc := breadcrumb ++ (if title = [] then [] else [title])
    let own :=
      if text = [] then ([], index)
      else
        let tokens := estimateTokens text
        if tokens ≤ target then
          if minChunk ≤ tokens then ([(⟨text, index, bc, page, page⟩ : Chunk)], index + 1)
          else ([], index)
        else
          emitParts minChunk bc page (splitText text target overlap) index
    (own.1 ++ (walkNodes target overlap minChunk children bc own.2).1,
      (walkNodes target overlap minChunk children bc own.2).2)

/-- Iteration of `walkNode` over a sibling list, threading the index. -/
def walkNodes (target overlap minChunk : Nat) (nodes : List DocNode)
    (breadcrumb : List (List Char)) (index : Nat) : List Chunk × Nat :=
  match nodes with
  | [] => ([], index)
  | n :: ns =>
    ((walkNode target overlap minChunk n breadcrumb index).1 ++
        (walkNodes target overlap minChunk ns breadcrumb
          (walkNode target overlap minChunk n breadcrumb index).2).1,
      (walkNodes target overlap minChunk ns breadcrumb
        (walkNode target overlap minChunk n breadcrumb index).2).2)

end

/-- `chunker.ChunkTree` (chunker file, lines 26-45). -/
def chunkTree (tree : DocTree) (cfg : ChunkConfig) : List Chunk :=
  (walkNodes (normChunkSize cfg) (normChunkOverlap cfg) (normMinChunk cfg)
    tree.children [] 0).1

/-! ## Fact validation and slug normalisation (extract/validate.go) -/

/-- ASCII case folding (`strings.ToLower` / regexp `(?i)` on the ASCII range). -/
def toLowerChar (c : Char) : Char :=
  if 'A' ≤ c ∧ c ≤ 'Z' then Char.ofNat (c.toNat + 32) else c

def toLowerStr (s : List Char) : List Char := s.map toLowerChar

/-- The character class `[a-z0-9-]` of the slug regexp. -/
def allowedChar (c : Char) : Bool :=
  ('a' ≤ c && c ≤ 'z') || ('0' ≤ c && c ≤ '9') || c = '-'

/-- `regexp [^a-z0-9-]` replacement by '-': the class matches one character at
a time, so each disallowed character becomes one dash. -/
def replaceBad (s : List Char) : List Char :=
  s.map (fun c => if allowedChar c then c else '-')

/-- State-carrying loop for collapsing dash runs (`regexp -+` → "-"). -/
def collapseAux : Char → List Char → List Char
  | _, [] => []
  | p, c :: cs => if p = '-' && c = '-' then collapseAux p cs else c :: collapseAux c cs

def collapseDashes : List Char → List Char
  | [] => []
  | c :: cs => c :: collapseAux c cs

def dropTrailingDashes : List Char → List Char
  | [] => []
  | c :: cs =>
    match dropTrailingDashes cs with
    | [] => if c = '-' then [] else [c]
    | r => c :: r

/-- `strings.Trim(s, "-")`. -/
def trimDashes (s : List Char) : List Char :=
  dropTrailingDashes (s.dropWhile (fun c => c = '-'))

/-- `extract.Slugify` (validate.go, lines 76-85).  The output is pure ASCII,
so the byte truncation `s[:50]` is `take 50`. -/
def slugify (s : List Char) : List Char :=
  (trimDashes (collapseDashes (replaceBad (toLowerStr (trimSpace s))))).take 50

/-- UTF-8 width of one scalar value (Go strings are UTF-8 bytes; `len` counts
bytes). -/
def utf8CharBytes (c : Char) : Nat :=
  if c.toNat < 0x80 then 1
  else if c.toNat < 0x800 then 2
  else if c.toNat < 0x10000 then 3
  else 4

/-- Go `len(s)`: the UTF-8 byte length. -/
def utf8Len (s : List Char) : Nat := (s.map utf8CharBytes).sum

/-- `extract.Fact`.  `float64` salience is modelled as an exact rational. -/
structure Fact where
  text : List Char
  category : List Char
  entity : List Char
  topics : List (List Char)
  salience : ℚ
  supersedes : List (List Char)
  minTrust : Int
deriving DecidableEq

/-- `extract.validCategories`. -/
def validCategory (c : List Char) : Bool :=
  c = s2l "entity_fact" || c = s2l "preference" ||
  c = s2l "topic_knowledge" || c = s2l "procedure"

/-- Match a literal at the head, returning the rest. -/
def litAfter : List Char → List Char → Option (List Char)
  | [], s => some s
  | _ :: _, [] => none
  | c :: cs, d :: ds => if c = d then litAfter cs ds else none

/-- `\s+` at the head (RE2 whitespace), maximal munch; every continuation in
the injection pattern starts with a non-space character or is the end of the
alternative, so the greedy reading is exact. -/
def ws1After : List Char → Option (List Char)
  | [] => none
  | c :: cs => if reIsSpace c then some (cs.dropWhile reIsSpace) else none

/-- `\s*` at the head. -/
def ws0After (s : List Char) : List Char := s.dropWhile reIsSpace

def seqLit (l : List Char) (s : Option (List Char)) : Option (List Char) :=
  s.bind (litAfter l)

def seqWs1 (s : Option (List Char)) : Option (List Char) := s.bind ws1After

def seqWs0 (s : Option (List Char)) : Option (List Char) := s.map ws0After

def anyLit (lits : List (List Char)) (s : List Char) : Bool :=
  lits.any (fun l => (litAfter l s).isSome)

/-- One alternative of `extract.injectionPattern` anchored at this position
(input already case-folded). -/
def injAt (s : List Char) : Bool :=
  let p := some s
  ((seqWs1 (seqLit (s2l "ignore") p)).elim false
      (anyLit [s2l "previous", s2l "all", s2l "above"])) ||
  (seqLit (s2l "prompt") (seqWs0 (seqLit (s2l "system") p))).isSome ||
  (seqLit (s2l "now") (seqWs1 (seqLit (s2l "are") (seqWs1 (seqLit (s2l "you") p))))).isSome ||
  (seqWs1 (seqLit (s2l "as") (seqWs1 (seqLit (s2l "act") p)))).isSome ||
  (seqWs1 (seqLit (s2l "pretend") p)).isSome ||
  ((seqWs1 (seqLit (s2l "forget") p)).elim false
      (anyLit [s2l "everything", s2l "all"])) ||
  (seqLit (s2l "override") p).isSome ||
  (seqLit (s2l "instructions") (seqWs1 (seqLit (s2l "new") p))).isSome

/-- `injectionPattern.MatchString`: unanchored, case-insensitive. -/
def injectionMatch (s : List Char) : Bool :=
  (toLowerStr s).tails.any injAt

/-- `extract.ValidateFact` (validate.go, lines 47-73), as a function from the
optional input fact to the optional validated (mutated) fact: `none` models
both a nil argument and a `false` return.  The float literals `0.01`/`1.0`
are modelled by the rationals they denote. -/
def validateFact : Option Fact → Option Fact
  | none => none
  | some f =>
    let text := trimSpace f.text
    if utf8Len text < 3 ∨ 300 < utf8Len text then none
    else if ¬ validCategory f.category then none
    else if injectionMatch text then none
    else if f.salience < mkRat 1 100 ∨ 1 < f.salience then none
    else
      let mt := if f.minTrust < 0 ∨ 10 < f.minTrust then 0 else f.minTrust
      some { f with minTrust := mt, topics := f.topics.take 3 }

/-! ## Parser registry (parser package) -/

/-- `strings.Split(s, sep)` for a one-character separator. -/
def splitOnChar (sep : Char) : List Char → List (List Char)
  | [] => [[]]
  | c :: cs =>
    if c = sep then [] :: splitOnChar sep cs
    else
      match splitOnChar sep cs with
      | [] => [[c]]
      | p :: ps => (c :: p) :: ps

/-- `filepath.Ext`: the suffix starting at the final dot of the final
slash-separated element; empty when that element has no dot. -/
def filepathExt (f : List Char) : List Char :=
  let base := (splitOnChar '/' f).getLastD []
  if base.any (fun c => c = '.') then
    '.' :: (base.reverse.takeWhile (fun c => ¬ c = '.')).reverse
  else []

/-- `parser.SupportedExtensions` (registry file, lines 215-224). -/
def supportedExtensions (e : List Char) : Bool :=
  e = s2l ".txt" || e = s2l ".md" || e = s2l ".csv" || e = s2l ".html" ||
  e = s2l ".htm" || e = s2l ".pdf" || e = s2l ".docx"

/-- `parser.IsSupportedExtension`. -/
def isSupportedExtension (f : List Char) : Bool :=
  supportedExtensions (toLowerStr (filepathExt f))

inductive ParserKind where
  | ptext | pmarkdown | pcsv | phtml | ppdf | pdocx
deriving DecidableEq

/-- The switch of `parser.ForFile` over the lower-cased extension. -/
def forFileExt (ext : List Char) : Except (List Char) ParserKind :=
  if ext = s2l ".txt" then .ok .ptext
  else if ext = s2l ".md" ∨ ext = s2l ".markdown" then .ok .pmarkdown
  else if ext = s2l ".csv" then .ok .pcsv
  else if ext = s2l ".html" ∨ ext = s2l ".htm" then .ok .phtml
  else if ext = s2l ".pdf" then .ok .ppdf
  else if ext = s2l ".docx" then .ok .pdocx
  else .error (s2l "unsupported file extension: " ++ ext)

/-- `parser.ForFile` (registry file, lines 226-251). -/
def forFile (f : List Char) : Except (List Char) ParserKind :=
  forFileExt (toLowerStr (filepathExt f))

/-! ## Retry policy (pipeline retry file) and LLM error chain -/

/-- Error values returned by the LLM client; `wrapped` models `fmt.Errorf`
with `%w`. -/
inductive LLMErr where
  | retryableErr (status : Int) (msg : List Char)
  | permErr (msg : List Char)
  | wrapped (msg : List Char) (inner : LLMErr)
deriving DecidableEq

/-- `pipeline.IsRetryable`: `errors.As` finds a `*RetryableError` anywhere in
the chain. -/
def isRetryable : LLMErr → Bool
  | .retryableErr _ _ => true
  | .permErr _ => false
  | .wrapped _ e => isRetryable e

/-- Two's-complement wrap to a signed 64-bit value. -/
def wrap64 (x : Int) : Int := (x + 2 ^ 63) % 2 ^ 64 - 2 ^ 63

/-- Go `1 << uint(attempt)` on a 64-bit int: multiply by two `attempt` times
with wraparound. -/
def goShl1 (n : Nat) : Int := wrap64 (2 ^ n)

/-- `pipeline.Backoff` (retry file, lines 18-25), with the random draw made a
parameter: `jitter = rand.Int64N(int64(base) / 2)`, a value of `[0, base/2)`.
`rand.Int64N` panics when its bound is not positive, modelled as `none`.
`time.Duration` arithmetic is 64-bit and wraps; `/` truncates toward zero. -/
def backoff (attempt : Nat) (jitter : Int) : Option Int :=
  let base0 : Int := wrap64 (goShl1 attempt * 1000000000)
  let base : Int := if 30000000000 < base0 then 30000000000 else base0
  let half : Int := Int.tdiv base 2
  if half ≤ 0 then none
  else some (base + jitter)

/-- `pipeline.MaxRetries`. -/
def maxRetries : Nat := 3

/-- The retry loop around `ExtractFacts` in `Worker.Process` (worker.go,
lines 109-121), abstracted over the outcome of each attempt; returns the
final outcome and the number of calls made.  `fuel` is the number of
remaining loop iterations (`maxRetries` initially, so the zero-fuel arm is
unreachable).  Context cancellation during the backoff sleep is elided. -/
def retryGo (oc : Nat → Except LLMErr (List Fact)) :
    Nat → Nat → Except LLMErr (List Fact) × Nat
  | attempt, 0 => (.error (.permErr []), attempt)
  | attempt, fuel + 1 =>
    match oc attempt with
    | .ok fs => (.ok fs, attempt + 1)
    | .error e =>
      if isRetryable e then
        if fuel = 0 then (.error e, attempt + 1)
        else retryGo oc (attempt + 1) fuel
      else (.error e, attempt + 1)

def retryLoop (oc : Nat → Except LLMErr (List Fact)) :
    Except LLMErr (List Fact) × Nat :=
  retryGo oc 0 maxRetries

/-! ## Extraction result collection (worker.go, lines 126-151) -/

/-- `chunkResult` as collected from the fan-out channel. -/
structure ChunkRes where
  facts : List Fact
  err : Option LLMErr
  idx : Nat
deriving DecidableEq

/-- One iteration of the collection loop: an errored chunk sets `hadErrors`;
a successful one contributes its facts that survive `ValidateFact` (in their
mutated form). -/
def collectStep (acc : List Fact × Bool) (r : ChunkRes) : List Fact × Bool :=
  match r.err with
  | some _ => (acc.1, true)
  | none => (acc.1 ++ r.facts.filterMap (fun f => validateFact (some f)), acc.2)

/-- The collection loop over all chunk results. -/
def collectLoop (rs : List ChunkRes) : List Fact × Bool :=
  rs.foldl collectStep ([], false)

/-- The gate `len(allFacts) == 0 && hadErrors` deciding failed/extracting. -/
def extractionFails (rs : List ChunkRes) : Bool :=
  (collectLoop rs).1.isEmpty && (collectLoop rs).2

/-! ## Dedup check (worker.go, lines 313-326) -/

/-- One node of a pathstore `ListChildren` response. -/
structure PSChild where
  key : List Char
deriving DecidableEq

/-- The trailing `'.'`-delimited segment of a key
(`strings.Split(key, "."); parts[len(parts)-1]`). -/
def lastDotSegment (k : List Char) : List Char :=
  (splitOnChar '.' k).getLastD []

/-- `Worker.checkDuplicate`, as a function of the `ListChildren` outcome:
an error is passed through; any child means duplicate, reporting the last
dot-segment of the first child's key. -/
def checkDuplicate (listRes : Except (List Char) (List PSChild)) :
    Except (List Char) (Bool × List Char) :=
  match listRes with
  | .error e => .error e
  | .ok [] => .ok (false, [])
  | .ok (c :: _) => .ok (true, lastDotSegment c.key)

/-! ## Storage planning (worker.go, lines 252-310 and 349-355) -/

structure CatInfo where
  pathTemplate : List Char
  memoryType : List Char
  defaultSal : ℚ
deriving DecidableEq

/-- `extract.CategoryMap`. -/
def categoryMap (c : List Char) : Option CatInfo :=
  if c = s2l "entity_fact" then
    some ⟨s2l "entities/{entity}/facts", s2l "semantic", mkRat 7 10⟩
  else if c = s2l "preference" then
    some ⟨s2l "entities/{entity}/preferences", s2l "semantic", mkRat 8 10⟩
  else if c = s2l "topic_knowledge" then
    some ⟨s2l "topics/{topic}", s2l "semantic", mkRat 5 10⟩
  else if c = s2l "procedure" then
    some ⟨s2l "procedures/{topic}", s2l "procedural", mkRat 6 10⟩
  else none

/-- `strings.Replace(s, old, new, 1)` for non-empty `old`. -/
def replaceOnce (pat sub : List Char) : List Char → List Char
  | [] => []
  | c :: cs =>
    match litAfter pat (c :: cs) with
    | some rest => sub ++ rest
    | none => c :: replaceOnce pat sub cs

/-- The path computation of `Worker.storeFact` (the PUT itself is an effect
recorded by the process model). -/
def storeFactPath (f : Fact) (pfx ulid : List Char) : Except (List Char) (List Char) :=
  match categoryMap f.category with
  | none => .error (s2l "unknown category: " ++ f.category)
  | some info =>
    let entity0 := slugify f.entity
    let entity := if entity0 = [] then s2l "general" else entity0
    let topics := (f.topics.map slugify).filter (fun t => !t.isEmpty)
    if f.category = s2l "entity_fact" ∨ f.category = s2l "preference" then
      .ok (pfx ++ '/' :: replaceOnce (s2l "{entity}") entity info.pathTemplate ++ '/' :: ulid)
    else if f.category = s2l "topic_knowledge" ∨ f.category = s2l "procedure" then
      let topic := match topics with | [] => s2l "general" | t :: _ => t
      .ok (pfx ++ '/' :: replaceOnce (s2l "{topic}") topic info.pathTemplate ++ '/' :: ulid)
    else .error (s2l "unexpected category: " ++ f.category)

/-- `pipeline.extractULID`: the last '/'-segment of a path. -/
def extractULID (path : List Char) : List Char :=
  let parts := splitOnChar '/' path
  if 0 < parts.length then parts.getLastD path else path

/-- `pipeline.flattenTreeText`'s walker (worker.go lines 329-346): pre-order
concatenation of non-empty node texts joined by a single newline. -/
def flattenGo (acc : List Char) : List DocNode → List Char
  | [] => acc
  | .mk _ t _ cs :: ns =>
    let acc1 := if t = [] then acc else (if acc = [] then t else acc ++ '\n' :: t)
    flattenGo (flattenGo acc1 cs) ns

def flattenTreeText (tree : DocTree) : List Char :=
  flattenGo [] tree.children

/-! ## Worker.Process as a sequential effect model (worker.go, lines 41-249)

Bounded-concurrency fan-outs are modelled in submission order (the claims
under study do not depend on interleaving).  External calls are oracles:
the parser result, the single dedup `ListChildren` outcome, per-chunk
per-attempt LLM outcomes, per-fact PUT outcomes and generated ULIDs.
`ContentHashHex` lives in a file missing from the snapshot (`job.go`, only
its tests survive); per its spec it is SHA-256 hex of the flattened text and
enters the model as the abstract parameter `hashFn`.  Manifest, meta and
hash-index write failures only append log/error strings and cannot change
the terminal status (worker.go lines 187-189, 222-225, 238-240), so their
outcomes are elided while the calls themselves are recorded as events. -/

/-- Job statuses; `completedWithErrors` is the source's `StatusPartial`. -/
inductive JobStatus where
  | queued | parsing | chunking | extracting | storing
  | completed | completedWithErrors | failed | dupSkipped
deriving DecidableEq

inductive Ev where
  | listChildren (key : List Char) (limit : Nat)
  | chunked (n : Nat)
  | llmCall (chunkIdx attempt : Nat)
  | putNode (key : List Char)
deriving DecidableEq

structure ProcOracles where
  parse : Except (List Char) DocTree
  listRes : Except (List Char) (List PSChild)
  llm : Nat → Nat → Except LLMErr (List Fact)
  storeOk : Nat → Option (List Char)
  ulid : Nat → List Char

structure ProcOut where
  status : JobStatus
  phase : List Char
  events : List Ev
  errors : List (List Char)
  dupDocID : Option (List Char)
  storedCount : Nat
deriving DecidableEq

def natToChars (n : Nat) : List Char := Nat.toDigits 10 n

def processModel (hashFn : List Char → List Char)
    (filename title userID docID : List Char)
    (o : ProcOracles) (cfg : ChunkConfig) : ProcOut :=
  match forFile filename with
  | .error e => ⟨.failed, s2l "parsing", [], [e], none, 0⟩
  | .ok _ =>
    match o.parse with
    | .error e => ⟨.failed, s2l "parsing", [], [s2l "parse: " ++ e], none, 0⟩
    | .ok tree0 =>
      let tree := if title = [] then tree0 else { tree0 with title := title }
      let contentHash := hashFn (flattenTreeText tree)
      let hashKey := s2l "memory/users/" ++ userID ++ s2l "/documents/by_hash/" ++ contentHash
      let ev0 := [Ev.listChildren hashKey 1]
      let dup : Option (List Char) :=
        match checkDuplicate o.listRes with
        | .ok (true, existingID) => some existingID
        | _ => none
      match dup with
      | some existingID => ⟨.dupSkipped, s2l "dedup", ev0, [], some existingID, 0⟩
      | none =>
        let chunks := chunkTree tree cfg
        let ev1 := ev0 ++ [Ev.chunked chunks.length]
        if chunks.length = 0 then
          ⟨.failed, s2l "chunking", ev1, [s2l "no extractable content"], none, 0⟩
        else
          let results := (List.range chunks.length).map (fun i => (i, retryLoop (o.llm i)))
          let evLLM := (results.map
            (fun r => (List.range r.2.2).map (fun a => Ev.llmCall r.1 a))).flatten
          let rs : List ChunkRes := results.map (fun r =>
            match r.2.1 with
            | .ok fs => ⟨fs, none, r.1⟩
            | .error e => ⟨[], some e, r.1⟩)
          let collected := collectLoop rs
          let errsExtract := rs.filterMap (fun r =>
            r.err.map (fun _ => s2l "chunk " ++ natToChars r.idx ++ s2l ": extract"))
          let ev2 := ev1 ++ evLLM
          if collected.1.isEmpty ∧ collected.2 then
            ⟨.failed, s2l "extracting", ev2, errsExtract, none, 0⟩
          else
            let pfx := s2l "memory/users/" ++ userID
            let docPfx := s2l "memory/users/" ++ userID ++ s2l "/documents/" ++ docID
            let stores : List (List Ev × Option (List Char)) :=
              collected.1.enum.map (fun jf =>
                match storeFactPath jf.2 pfx (o.ulid jf.1) with
                | .error e => ([], some (s2l "store : " ++ e))
                | .ok path =>
                  match o.storeOk jf.1 with
                  | some e => ([Ev.putNode path], some (s2l "store " ++ path ++ s2l ": " ++ e))
                  | none =>
                    ([Ev.putNode path,
                      Ev.putNode (docPfx ++ s2l "/facts/" ++ extractULID path)], none))
            let evStores := (stores.map (fun x => x.1)).flatten
            let storeErrs := stores.filterMap (fun x => x.2)
            let storedCount := stores.countP (fun x => x.2.isNone)
            let hadErrors := collected.2 || !storeErrs.isEmpty
            let ev3 := ev2 ++ evStores ++
              [Ev.putNode (docPfx ++ s2l "/meta"),
               Ev.putNode (hashKey ++ '/' :: docID)]
            if hadErrors ∧ 0 < storedCount then
              ⟨.completedWithErrors, s2l "done", ev3, errsExtract ++ storeErrs, none, storedCount⟩
            else if hadErrors then
              ⟨.failed, s2l "storing", ev3, errsExtract ++ storeErrs, none, storedCount⟩
            else
              ⟨.completed, s2l "done", ev3, errsExtract ++ storeErrs, none, storedCount⟩

/-! ## Orchestrator.Submit (orchestrator file, lines 99-108) -/

structure JobRec where
  status : JobStatus
  phase : List Char
deriving DecidableEq

/-- Modelled from the spec: the JobStore of `job.go` (missing from the
snapshot; only its tests survive) is a mutex-guarded map id → job;
`Put` inserts/replaces. -/
def putAssoc : List (List Char × JobRec) → List Char → JobRec → List (List Char × JobRec)
  | [], id, r => [(id, r)]
  | (k, v) :: rest, id, r =>
    if k = id then (id, r) :: rest else (k, v) :: putAssoc rest id r

/-- Modelled from the spec: `JobStore.Get`. -/
def getAssoc : List (List Char × JobRec) → List Char → Option JobRec
  | [], _ => none
  | (k, v) :: rest, id => if k = id then some v else getAssoc rest id

structure OrchState where
  jobs : List (List Char × JobRec)
  queue : List (List Char)
  maxQueue : Nat
deriving DecidableEq

/-- `Orchestrator.Submit`: store the job, then try a non-blocking send on the
bounded channel (succeeds exactly when the buffer has room).  On failure the
stored job (the store holds the same pointer) is set to failed/queue_full and
an error (`false`) is returned.  `Job.SetStatus` is modelled from the spec
(job.go missing): it sets the two fields. -/
def submit (st : OrchState) (id : List Char) (rec : JobRec) : OrchState × Bool :=
  let jobs1 := putAssoc st.jobs id rec
  if st.queue.length < st.maxQueue then
    ({ st with jobs := jobs1, queue := st.queue ++ [id] }, true)
  else
    ({ st with
        jobs := putAssoc jobs1 id { rec with status := .failed, phase := s2l "queue_full" },
        queue := st.queue }, false)

/-! ## LLM client (extract/claude.go) and latency stats (extract stats file) -/

inductive HTTPOutcome where
  | transportErr (msg : List Char)
  | resp (status : Nat) (body : List Char)

structure AnthropicResp where
  content : List (List Char)
  errorEnv : Option (List Char × List Char)

def dropTrailingWhile (p : Char → Bool) (s : List Char) : List Char :=
  (s.reverse.dropWhile p).reverse

/-- `extract.stripCodeBlock`: the regexp
`(?s)^(backtick-fence)(?:json)?\s*(.*?)\s*(backtick-fence)$` after trimming. -/
def stripCodeBlock (s : List Char) : List Char :=
  let t := trimSpace s
  match litAfter (s2l "```") t with
  | none => t
  | some rest =>
    let rest1 := match litAfter (s2l "json") rest with
                 | some r => r
                 | none => rest
    if (litAfter (s2l "```") rest1.reverse).isSome then
      dropTrailingWhile reIsSpace (ws0After ((rest1.reverse.drop 3).reverse))
    else t

/-- `ClaudeClient.ExtractFacts` (claude.go, lines 56-118) over an abstract
HTTP outcome, with the stdlib JSON decoders abstracted as parameters.  The
latency-sample list is threaded to make the recording behaviour explicit:
the client struct has no stats field and the function body contains no
`Record` call, so every branch leaves the samples unchanged. -/
def extractFacts (decodeResp : List Char → Option AnthropicResp)
    (decodeFacts : List Char → Option (List Fact))
    (out : HTTPOutcome) (stats : List Int) :
    Except LLMErr (List Fact) × List Int :=
  match out with
  | .transportErr e => (.error (.wrapped (s2l "claude api: ") (.permErr e)), stats)
  | .resp status body =>
    if status = 429 ∨ 500 ≤ status then (.error (.retryableErr status body), stats)
    else if ¬ status = 200 then (.error (.permErr (s2l "claude api status")), stats)
    else
      match decodeResp body with
      | none => (.error (.permErr (s2l "decode response")), stats)
      | some r =>
        match r.errorEnv with
        | some _ => (.error (.permErr (s2l "claude error")), stats)
        | none =>
          match r.content with
          | [] => (.error (.permErr (s2l "empty response from claude")), stats)
          | t0 :: _ =>
            match decodeFacts (stripCodeBlock t0) with
            | none => (.error (.permErr (s2l "parse facts json")), stats)
            | some fs => (.ok fs, stats)

/-- `LLMStats.Record` (stats file, lines 165-179): clamp negatives to zero,
prune samples older than `now - maxAge`, append one timestamped sample. -/
def llmStatsRecord (now maxAge durMs : Int) (samples : List (Int × Int)) :
    List (Int × Int) :=
  let d := if durMs < 0 then 0 else durMs
  (samples.filter (fun s => ¬ s.1 < now - maxAge)) ++ [(now, d)]

/-! ## C2: the token estimator -/

/-- Spec-side definition for comparison: `round(wordCount(s) × 1.33)` =
`⌊(133·w + 50)/100⌋` (round half away from zero; all values non-negative). -/
def roundTokensSpec (w : Nat) : Nat := (w * 133 + 50) / 100

/-- Spec-side truncation `⌊wordCount(s) × 1.33⌋` used by the amended claim. -/
def truncTokensSpec (w : Nat) : Nat := w * 133 / 100

/-- C2, counterexample: the source truncates instead of rounding.  On
`"a b c"` (3 words) the code yields `⌊3.99⌋ = 3` while the spec's
`round(3 × 1.33) = 4`. -/
theorem c2_counterexample :
    ¬ (∀ s : List Char, estimateTokens s = roundTokensSpec (wc s)) := by
  intro h
  exact absurd (h (s2l "a b c")) (by decide)

/-- C2 (amended): `estimateTokens` equals the *truncation*
`⌊wordCount(s) × 1.33⌋`, clamped up to 1 on non-empty input (so it is 1 even
for non-empty all-whitespace input), and is 0 on empty input; in particular
it is at least 1 for every non-empty input. -/
theorem c2_amended (s : List Char) :
    estimateTokens s = (if s = [] then 0 else max 1 (truncTokensSpec (wc s))) ∧
    (s ≠ [] → 1 ≤ estimateTokens s) := by
  have h : estimateTokens s = (if s = [] then 0 else max 1 (truncTokensSpec (wc s))) := by
    unfold estimateTokens truncTokensSpec
    split
    · rfl
    · show (if wc s * 133 / 100 < 1 then 1 else wc s * 133 / 100) = _
      split <;> omega
  refine ⟨h, fun hs => ?_⟩
  rw [h, if_neg hs]
  omega

/-- C2 witness: the amended statement at a concrete input. -/
theorem c2_amended_witness : 1 ≤ estimateTokens (s2l "hi there") :=
  (c2_amended (s2l "hi there")).2 (by decide)

/-! ## C10: the parser registry -/

/-- C10: a supported extension always yields a parser, the converse fails at
`.markdown` (handled by `ForFile`, absent from `SupportedExtensions`), and
that lower-cased extension is the only point of disagreement. -/
theorem c10_registry :
    (∀ f : List Char, isSupportedExtension f = true → (forFile f).isOk = true) ∧
    ((forFile (s2l "notes.markdown")).isOk = true ∧
      isSupportedExtension (s2l "notes.markdown") = false) ∧
    (∀ f : List Char,
      ((forFile f).isOk = true ∧ isSupportedExtension f = false) ↔
        toLowerStr (filepathExt f) = s2l ".markdown") := by
  refine ⟨fun f h => ?_, by decide, fun f => ?_⟩
  · unfold isSupportedExtension supportedExtensions at h
    unfold forFile forFileExt
    generalize toLowerStr (filepathExt f) = e at h ⊢
    simp only [Bool.or_eq_true, decide_eq_true_eq] at h
    rcases h with ((((((h | h) | h) | h) | h) | h) | h) <;> subst h <;> decide
  · unfold isSupportedExtension supportedExtensions forFile forFileExt
    generalize toLowerStr (filepathExt f) = e
    constructor
    · rintro ⟨hok, hsup⟩
      by_cases h1 : e = s2l ".txt"
      · subst h1; simp at hsup
      · by_cases h2 : e = s2l ".md" ∨ e = s2l ".markdown"
        · rcases h2 with h2 | h2
          · subst h2; simp at hsup
          · exact h2
        · by_cases h3 : e = s2l ".csv"
          · subst h3; simp at hsup
          · by_cases h4 : e = s2l ".html" ∨ e = s2l ".htm"
            · rcases h4 with h4 | h4 <;> subst h4 <;> simp at hsup
            · by_cases h5 : e = s2l ".pdf"
              · subst h5; simp at hsup
              · by_cases h6 : e = s2l ".docx"
                · subst h6; simp at hsup
                · rw [if_neg h1, if_neg h2, if_neg h3, if_neg h4, if_neg h5,
                    if_neg h6] at hok
                  simp [Except.isOk, Except.toBool] at hok
    · intro he
      subst he
      decide

/-- C10 witness: the forward implication at a concrete supported filename. -/
theorem c10_registry_witness : (forFile (s2l "a.txt")).isOk = true :=
  c10_registry.1 (s2l "a.txt") (by decide)

/-! ## C8: backoff and the retry loop -/

/-- Spec-side backoff base `min(2^n, 30)` seconds in nanoseconds. -/
def minBackoffBase (n : Nat) : Int := (min ((2:Int) ^ n) 30) * 1000000000

theorem wrap64_eq_of_bounds (x : Int) (h1 : -(2 ^ 63) ≤ x) (h2 : x < 2 ^ 63) :
    wrap64 x = x := by
  unfold wrap64
  omega

/-- C8, counterexample: at attempt 34 the `time.Duration` product
`(1 << 34) * time.Second` overflows int64 to a negative value, the 30 s cap
does not apply, and `rand.Int64N` receives a non-positive bound and panics:
no duration in the claimed interval is returned. -/
theorem c8_counterexample : backoff 34 0 = none := by decide

/-- C8 (amended): for attempts `n ≤ 33` (in particular for the only attempts
0..2 the pipeline ever passes), every jitter draw `j ∈ [0, base/2)` gives
`Backoff n = base + j ∈ [min(2^n,30)s, 1.5·min(2^n,30)s)`; at attempt 34 the
product `(1 << 34) * time.Second` wraps to a negative int64, the 30 s cap (a
strict `>` test) does not apply, and `rand.Int64N` panics on a non-positive
bound regardless of the jitter draw; and the extraction loop makes at most
`MaxRetries = 3` calls per chunk, re-attempting only after an error whose
chain contains a `RetryableError`.  (No claim is made for attempts above 34:
there the wrapped product can be positive again — at 37 it is
8311744956033138688, the cap applies, and a 30 s + jitter duration is
returned normally.) -/
theorem c8_amended :
    (∀ n : Nat, n ≤ 33 → ∀ j : Int, 0 ≤ j → j < Int.tdiv (minBackoffBase n) 2 →
      backoff n j = some (minBackoffBase n + j) ∧
      minBackoffBase n ≤ minBackoffBase n + j ∧
      2 * (minBackoffBase n + j) < 3 * minBackoffBase n) ∧
    (∀ j : Int, backoff 34 j = none) ∧
    (∀ oc : Nat → Except LLMErr (List Fact),
      (retryLoop oc).2 ≤ maxRetries ∧
      (∀ k, k + 1 < (retryLoop oc).2 →
        ∃ e, oc k = .error e ∧ isRetryable e = true)) := by
  refine ⟨?_, fun _ => rfl, ?_⟩
  · intro n hn j hj0 hj1
    have hpow : (2:Int) ^ n ≤ 2 ^ 33 := by
      apply pow_le_pow_right₀ (by norm_num) hn
    have hpow0 : (1:Int) ≤ 2 ^ n := one_le_pow₀ (by norm_num)
    have h2n : (2:Int) ^ n < 2 ^ 63 := lt_of_le_of_lt hpow (by norm_num)
    have hs : goShl1 n = (2:Int) ^ n :=
      wrap64_eq_of_bounds _ (by linarith) h2n
    have hprodle : (2:Int) ^ n * 1000000000 ≤ 2 ^ 33 * 1000000000 := by
      exact mul_le_mul_of_nonneg_right hpow (by norm_num)
    have hprod : wrap64 ((2:Int) ^ n * 1000000000) = (2:Int) ^ n * 1000000000 := by
      apply wrap64_eq_of_bounds
      · nlinarith
      · calc (2:Int) ^ n * 1000000000 ≤ 2 ^ 33 * 1000000000 := hprodle
          _ < 2 ^ 63 := by norm_num
    have hK1 : (1:Int) ≤ min ((2:Int) ^ n) 30 := le_min hpow0 (by norm_num)
    have hbase :
        (if (30000000000:Int) < (2:Int) ^ n * 1000000000 then (30000000000:Int)
          else (2:Int) ^ n * 1000000000) = minBackoffBase n := by
      unfold minBackoffBase
      by_cases h : (30:Int) < (2:Int) ^ n
      · rw [if_pos (by linarith), min_eq_right h.le]
        norm_num
      · push_neg at h
        rw [if_neg (by nlinarith), min_eq_left h]
    have htdiv : Int.tdiv (min ((2:Int) ^ n) 30 * 1000000000) 2 =
        min ((2:Int) ^ n) 30 * 500000000 := by
      rw [show (1000000000:Int) = 500000000 * 2 by norm_num, ← mul_assoc]
      exact Int.mul_tdiv_cancel _ (by norm_num)
    have hmb : minBackoffBase n = min ((2:Int) ^ n) 30 * 1000000000 := rfl
    rw [hmb, htdiv] at hj1
    have hhalfpos : (0:Int) < min ((2:Int) ^ n) 30 * 500000000 := by nlinarith
    simp only [backoff, hs, hprod, hbase, hmb, htdiv]
    rw [if_neg (by omega)]
    refine ⟨rfl, by linarith, by nlinarith⟩
  · intro oc
    cases h0 : oc 0 with
    | ok fs0 =>
      have hv : (retryLoop oc).2 = 1 := by
        simp [retryLoop, maxRetries, retryGo, h0]
      rw [hv]
      exact ⟨by decide, fun k hk => absurd hk (by omega)⟩
    | error e0 =>
      by_cases hr0 : isRetryable e0
      · cases h1 : oc 1 with
        | ok fs1 =>
          have hv : (retryLoop oc).2 = 2 := by
            simp [retryLoop, maxRetries, retryGo, h0, hr0, h1]
          rw [hv]
          refine ⟨by decide, fun k hk => ?_⟩
          have hk0 : k = 0 := by omega
          subst hk0
          exact ⟨e0, h0, hr0⟩
        | error e1 =>
          by_cases hr1 : isRetryable e1
          · have hv : (retryLoop oc).2 = 3 := by
              simp only [retryLoop, maxRetries, retryGo, h0, hr0, h1, hr1, if_true]
              cases oc 2 <;> simp
            rw [hv]
            refine ⟨by decide, fun k hk => ?_⟩
            match k, hk with
            | 0, _ => exact ⟨e0, h0, hr0⟩
            | 1, _ => exact ⟨e1, h1, hr1⟩
          · have hv : (retryLoop oc).2 = 2 := by
              simp [retryLoop, maxRetries, retryGo, h0, hr0, h1, hr1]
            rw [hv]
            refine ⟨by decide, fun k hk => ?_⟩
            have hk0 : k = 0 := by omega
            subst hk0
            exact ⟨e0, h0, hr0⟩
      · have hv : (retryLoop oc).2 = 1 := by
          simp [retryLoop, maxRetries, retryGo, h0, hr0]
        rw [hv]
        exact ⟨by decide, fun k hk => absurd hk (by omega)⟩

/-- C8 witness: the amended statement at attempt 3 with jitter 0, at attempt
34 with jitter 5, and a single-success extraction. -/
theorem c8_amended_witness :
    backoff 3 0 = some (minBackoffBase 3 + 0) ∧
    backoff 34 5 = none ∧
    (retryLoop (fun _ => .ok [])).2 ≤ maxRetries :=
  ⟨(c8_amended.1 3 (by norm_num) 0 le_rfl (by decide)).1,
    c8_amended.2.1 5,
    (c8_amended.2.2 (fun _ => .ok [])).1⟩

/-! ## C5: the failed/extracting gate -/

theorem foldl_collectStep_snd (rs : List ChunkRes) (init : List Fact × Bool) :
    (rs.foldl collectStep init).2 = (init.2 || rs.any (fun r => r.err.isSome)) := by
  induction rs generalizing init with
  | nil => simp
  | cons r rest ih =>
    cases hr : r.err with
    | none => simp [collectStep, hr, ih]
    | some e => simp [collectStep, hr, ih]

/-- C5, counterexample: the gate fires on *any* chunk error with zero valid
facts, not only when *every* chunk failed.  With one failed chunk and one
successful chunk that returned no facts, the code transitions to
failed/extracting although not every chunk failed. -/
theorem c5_counterexample :
    ¬ (∀ rs : List ChunkRes,
        extractionFails rs = true ↔
          ((∀ r ∈ rs, r.err.isSome = true) ∧ (collectLoop rs).1 = [])) := by
  intro h
  have h2 := (h [⟨[], some (.permErr []), 0⟩, ⟨[], none, 1⟩]).mp (by decide)
  have h3 := h2.1 ⟨[], none, 1⟩ (by decide)
  exact absurd h3 (by decide)

/-- C5 (amended): after collecting all chunk results, the job is failed with
phase "extracting" (and the pipeline returns before the storing step) exactly
when zero validated facts were accumulated *and at least one* chunk's
extraction failed; in every other case — including all chunks succeeding
with zero valid facts — the pipeline proceeds to the storing step. -/
theorem c5_amended (rs : List ChunkRes) :
    extractionFails rs = true ↔
      ((collectLoop rs).1 = [] ∧ ∃ r ∈ rs, r.err.isSome = true) := by
  have hsnd : (collectLoop rs).2 = rs.any (fun r => r.err.isSome) := by
    simpa using foldl_collectStep_snd rs ([], false)
  simp [extractionFails, hsnd, List.isEmpty_iff, List.any_eq_true]

/-! ## C7: Submit admission control -/

theorem getAssoc_putAssoc (l : List (List Char × JobRec)) (id : List Char) (r : JobRec) :
    getAssoc (putAssoc l id r) id = some r := by
  induction l with
  | nil => simp [putAssoc, getAssoc]
  | cons kv rest ih =>
    cases kv with
    | mk k v =>
      by_cases h : k = id
      · simp [putAssoc, getAssoc, h]
      · simp [putAssoc, getAssoc, h, ih]

/-- C7: `Submit` stores the job unconditionally (it is retrievable from the
JobStore whatever happens next); with queue capacity left it enqueues,
returns no error and leaves the job's status untouched; with a full queue it
returns an error, leaves the queue unchanged and the stored job reads
failed/queue_full. -/
theorem c7_submit (st : OrchState) (id : List Char) (rec : JobRec) :
    (getAssoc (submit st id rec).1.jobs id).isSome = true ∧
    (st.queue.length < st.maxQueue →
      (submit st id rec).2 = true ∧
      getAssoc (submit st id rec).1.jobs id = some rec ∧
      (submit st id rec).1.queue = st.queue ++ [id]) ∧
    (¬ st.queue.length < st.maxQueue →
      (submit st id rec).2 = false ∧
      getAssoc (submit st id rec).1.jobs id = some ⟨.failed, s2l "queue_full"⟩ ∧
      (submit st id rec).1.queue = st.queue) := by
  by_cases h : st.queue.length < st.maxQueue <;>
    simp [submit, h, getAssoc_putAssoc]

/-- C7 witness: a submit into an empty one-slot queue succeeds; a submit into
a full one-slot queue fails and marks the stored job failed/queue_full. -/
theorem c7_submit_witness :
    (submit ⟨[], [], 1⟩ (s2l "j1") ⟨.queued, s2l "queued"⟩).2 = true ∧
    (submit ⟨[], [s2l "x"], 1⟩ (s2l "j2") ⟨.queued, s2l "queued"⟩).2 = false ∧
    getAssoc (submit ⟨[], [s2l "x"], 1⟩ (s2l "j2") ⟨.queued, s2l "queued"⟩).1.jobs
      (s2l "j2") = some ⟨.failed, s2l "queue_full"⟩ :=
  ⟨((c7_submit ⟨[], [], 1⟩ (s2l "j1") ⟨.queued, s2l "queued"⟩).2.1 (by decide)).1,
    ((c7_submit ⟨[], [s2l "x"], 1⟩ (s2l "j2") ⟨.queued, s2l "queued"⟩).2.2 (by decide)).1,
    ((c7_submit ⟨[], [s2l "x"], 1⟩ (s2l "j2") ⟨.queued, s2l "queued"⟩).2.2 (by decide)).2.1⟩

/-! ## C9: latency recording in ExtractFacts -/

/-- C9: contrary to the claim (and its own API handler, which reads a
`claude.Stats` field that the `ClaudeClient` struct does not even declare),
`ExtractFacts` records no latency sample on any path: the sample list is
returned unchanged for every outcome, so after `k` calls the stats count has
increased by 0, not `k`. -/
theorem c9_no_latency_recording (decodeResp : List Char → Option AnthropicResp)
    (decodeFacts : List Char → Option (List Fact)) (out : HTTPOutcome)
    (stats : List Int) :
    (extractFacts decodeResp decodeFacts out stats).2 = stats := by
  cases out with
  | transportErr e => rfl
  | resp status body =>
    simp only [extractFacts]
    repeat' split
    all_goals rfl

/-! ## C6: duplicate detection short-circuit -/

/-- C6: once parsing succeeded, a non-empty `ListChildren` result under
`memory/users/{userID}/documents/by_hash/{contentHash}` (limit 1) makes the
job duplicate_skipped with phase "dedup" and ends the run with the listing as
its only effect — no chunking, no LLM call, no pathstore write; the reported
docID is the last '.'-delimited segment of the first child's key.  A listing
error is non-fatal: the run goes on to the chunking step. -/
theorem c6_dedup (hashFn : List Char → List Char)
    (filename title userID docID : List Char) (o : ProcOracles)
    (cfg : ChunkConfig) (pk : ParserKind) (tree : DocTree)
    (hpf : forFile filename = .ok pk) (hparse : o.parse = .ok tree) :
    (∀ ch rest, o.listRes = .ok (ch :: rest) →
      (processModel hashFn filename title userID docID o cfg).status = .dupSkipped ∧
      (processModel hashFn filename title userID docID o cfg).phase = s2l "dedup" ∧
      (processModel hashFn filename title userID docID o cfg).dupDocID =
        some (lastDotSegment ch.key) ∧
      (processModel hashFn filename title userID docID o cfg).events =
        [Ev.listChildren
          (s2l "memory/users/" ++ userID ++ s2l "/documents/by_hash/" ++
            hashFn (flattenTreeText (if title = [] then tree else { tree with title := title })))
          1]) ∧
    (∀ emsg, o.listRes = .error emsg →
      Ev.chunked
          (chunkTree (if title = [] then tree else { tree with title := title }) cfg).length
        ∈ (processModel hashFn filename title userID docID o cfg).events) := by
  constructor
  · intro ch rest hlist
    rw [processModel, hpf, hparse, hlist]
    simp [checkDuplicate]
  · intro emsg hlist
    rw [processModel, hpf, hparse, hlist]
    simp only [checkDuplicate]
    set tree1 := if title = [] then tree else { tree with title := title } with htree1
    set n := (chunkTree tree1 cfg).length with hn
    by_cases hz : n = 0
    · simp [hz]
    · simp only [if_neg hz]
      repeat' split
      all_goals simp

/-- C6 witness: a concrete duplicate run. -/
theorem c6_dedup_witness :
    (processModel (fun _ => s2l "H") (s2l "f.txt") [] (s2l "u1") (s2l "d1")
      { parse := .ok ⟨s2l "T", [.mk [] (s2l "hello world one two") 0 []]⟩,
        listRes := .ok [⟨s2l "a.b.doc42"⟩],
        llm := fun _ _ => .ok [], storeOk := fun _ => none,
        ulid := fun _ => s2l "U" }
      ⟨2, 1, 1⟩).status = .dupSkipped ∧
    (processModel (fun _ => s2l "H") (s2l "f.txt") [] (s2l "u1") (s2l "d1")
      { parse := .ok ⟨s2l "T", [.mk [] (s2l "hello world one two") 0 []]⟩,
        listRes := .ok [⟨s2l "a.b.doc42"⟩],
        llm := fun _ _ => .ok [], storeOk := fun _ => none,
        ulid := fun _ => s2l "U" }
      ⟨2, 1, 1⟩).dupDocID = some (s2l "doc42") := by
  have h := c6_dedup (fun _ => s2l "H") (s2l "f.txt") [] (s2l "u1") (s2l "d1")
    { parse := .ok ⟨s2l "T", [.mk [] (s2l "hello world one two") 0 []]⟩,
      listRes := .ok [⟨s2l "a.b.doc42"⟩],
      llm := fun _ _ => .ok [], storeOk := fun _ => none,
      ulid := fun _ => s2l "U" }
    ⟨2, 1, 1⟩ .ptext ⟨s2l "T", [.mk [] (s2l "hello world one two") 0 []]⟩ rfl rfl
  have h2 := h.1 ⟨s2l "a.b.doc42"⟩ [] rfl
  refine ⟨h2.1, ?_⟩
  rw [h2.2.2.1]
  decide

/-! ## C3: slug idempotence -/

/-- "No double dash": no two adjacent '-' characters. -/
def noDD : List Char → Prop
  | [] => True
  | [_] => True
  | a :: b :: t => ¬(a = '-' ∧ b = '-') ∧ noDD (b :: t)

theorem noDD_tail {a : Char} {l : List Char} (h : noDD (a :: l)) : noDD l := by
  cases l with
  | nil => trivial
  | cons b t => exact h.2

theorem noDD_cons_of_head {a : Char} {l : List Char}
    (hl : noDD l) (h : ∀ x, l.head? = some x → ¬(a = '-' ∧ x = '-')) :
    noDD (a :: l) := by
  cases l with
  | nil => trivial
  | cons b t => exact ⟨h b rfl, hl⟩

theorem mem_collapseAux {c p : Char} {l : List Char} (h : c ∈ collapseAux p l) :
    c ∈ l := by
  induction l generalizing p with
  | nil => simpa [collapseAux] using h
  | cons x xs ih =>
    rw [collapseAux] at h
    split at h
    · exact List.mem_cons_of_mem _ (ih h)
    · rcases List.mem_cons.1 h with h | h
      · simp [h]
      · exact List.mem_cons_of_mem _ (ih h)

theorem mem_collapseDashes {c : Char} {l : List Char} (h : c ∈ collapseDashes l) :
    c ∈ l := by
  cases l with
  | nil => simpa [collapseDashes] using h
  | cons x xs =>
    rw [collapseDashes] at h
    rcases List.mem_cons.1 h with h | h
    · simp [h]
    · exact List.mem_cons_of_mem _ (mem_collapseAux h)

theorem noDD_cons_collapseAux (l : List Char) : ∀ p, noDD (p :: collapseAux p l) := by
  induction l with
  | nil => intro p; trivial
  | cons c cs ih =>
    intro p
    rw [collapseAux]
    split
    · exact ih p
    · rename_i hnot
      refine noDD_cons_of_head (ih c) ?_
      intro x hx
      simp at hx
      subst hx
      simpa using hnot

theorem noDD_collapseDashes (l : List Char) : noDD (collapseDashes l) := by
  cases l with
  | nil => trivial
  | cons c cs => exact noDD_cons_collapseAux cs c

theorem noDD_dropWhile (p : Char → Bool) (l : List Char) (h : noDD l) :
    noDD (l.dropWhile p) := by
  induction l with
  | nil => trivial
  | cons a t ih =>
    rw [List.dropWhile_cons]
    split
    · exact ih (noDD_tail h)
    · exact h

/-- The head of `dropTrailingDashes l`, when it exists, is the head of `l`. -/
theorem dropTrailingDashes_head {l : List Char} {x : Char} {xs : List Char}
    (h : dropTrailingDashes l = x :: xs) : ∃ ys, l = x :: ys := by
  cases l with
  | nil => simp [dropTrailingDashes] at h
  | cons c cs =>
    rw [dropTrailingDashes] at h
    split at h
    · split at h
      · simp at h
      · simp at h
        exact ⟨cs, by rw [h.1]⟩
    · rw [List.cons_eq_cons] at h
      exact ⟨cs, by rw [h.1]⟩

theorem noDD_dropTrailingDashes {l : List Char} (h : noDD l) :
    noDD (dropTrailingDashes l) := by
  induction l with
  | nil => trivial
  | cons c cs ih =>
    rw [dropTrailingDashes]
    split
    · split
      · trivial
      · trivial
    · refine noDD_cons_of_head (ih (noDD_tail h)) ?_
      intro x hx
      cases hdt : dropTrailingDashes cs with
      | nil => rw [hdt] at hx; simp at hx
      | cons y ys =>
        rw [hdt] at hx
        simp at hx
        subst hx
        obtain ⟨zs, hzs⟩ := dropTrailingDashes_head hdt
        subst hzs
        exact h.1

theorem mem_dropTrailingDashes {c : Char} {l : List Char}
    (h : c ∈ dropTrailingDashes l) : c ∈ l := by
  induction l with
  | nil => simpa [dropTrailingDashes] using h
  | cons x xs ih =>
    rw [dropTrailingDashes] at h
    split at h
    · split at h
      · simp at h
      · simp at h
        simp [h]
    · rcases List.mem_cons.1 h with h | h
      · simp [h]
      · exact List.mem_cons_of_mem _ (ih h)

/-- `dropTrailingDashes` is the identity when the last character is not '-'. -/
theorem dropTrailingDashes_eq_self {l : List Char}
    (h : ¬ l.getLast? = some '-') : dropTrailingDashes l = l := by
  induction l with
  | nil => rfl
  | cons c cs ih =>
    rw [dropTrailingDashes]
    cases cs with
    | nil =>
      simp only [List.getLast?_singleton] at h
      simp [dropTrailingDashes]
      intro hc
      exact absurd (by rw [hc]) h
    | cons d ds =>
      have hlast : ¬ (d :: ds).getLast? = some '-' := by
        rwa [List.getLast?_cons_cons] at h
      rw [ih hlast]

/-- The output of `dropTrailingDashes` never ends in '-'. -/
theorem dropTrailingDashes_getLast (l : List Char) :
    ¬ (dropTrailingDashes l).getLast? = some '-' := by
  induction l with
  | nil => simp [dropTrailingDashes]
  | cons c cs ih =>
    rw [dropTrailingDashes]
    split
    · split
      · simp
      · rename_i hc
        simp only [List.getLast?_singleton, Option.some.injEq]
        intro hcc
        exact hc hcc
    · rename_i hr
      cases hdt : dropTrailingDashes cs with
      | nil => exact absurd hdt (by simpa using hr)
      | cons y ys =>
        rw [hdt] at ih
        rw [List.getLast?_cons_cons]
        exact ih

theorem noDD_take (l : List Char) (h : noDD l) : ∀ n, noDD (l.take n) := by
  induction l with
  | nil => intro n; simp; trivial
  | cons a t ih =>
    intro n
    cases n with
    | zero => trivial
    | succ m =>
      rw [List.take_succ_cons]
      refine noDD_cons_of_head (ih (noDD_tail h) m) ?_
      intro x hx
      cases t with
      | nil => simp at hx
      | cons b bs =>
        cases m with
        | zero => simp at hx
        | succ k =>
          rw [List.take_succ_cons] at hx
          simp at hx
          subst hx
          exact h.1

theorem allowed_not_space {c : Char} (h : allowedChar c = true) :
    goIsSpace c = false := by
  by_contra hb
  have hsp : goIsSpace c = true := by
    cases hgs : goIsSpace c
    · exact absurd hgs hb
    · rfl
  unfold goIsSpace at hsp
  simp only [Bool.or_eq_true, decide_eq_true_eq] at hsp
  rcases hsp with ((((h1 | h1) | h1) | h1) | h1) | h1 <;>
    subst h1 <;> simp [allowedChar] at h

theorem allowed_toLower_fix {c : Char} (h : allowedChar c = true) :
    toLowerChar c = c := by
  unfold toLowerChar
  split
  · rename_i hAZ
    exfalso
    unfold allowedChar at h
    simp only [Bool.or_eq_true, Bool.and_eq_true, decide_eq_true_eq] at h
    rcases h with (⟨h1, _⟩ | ⟨h1, h2⟩) | h1
    · exact absurd (le_trans h1 hAZ.2) (by decide)
    · exact absurd (le_trans hAZ.1 h2) (by decide)
    · subst h1; exact absurd hAZ.1 (by decide)
  · rfl

theorem map_id_on {f : Char → Char} {l : List Char}
    (h : ∀ c ∈ l, f c = c) : l.map f = l := by
  induction l with
  | nil => rfl
  | cons a t ih =>
    rw [List.map_cons, h a (by simp), ih (fun c hc => h c (by simp [hc]))]

theorem collapseAux_eq_self {l : List Char} : ∀ p, noDD (p :: l) → collapseAux p l = l := by
  induction l with
  | nil => intro p _; rfl
  | cons c cs ih =>
    intro p h
    rw [collapseAux, if_neg (by simpa using h.1), ih c (noDD_tail h)]

theorem collapseDashes_eq_self {l : List Char} (h : noDD l) : collapseDashes l = l := by
  cases l with
  | nil => rfl
  | cons c cs => rw [collapseDashes, collapseAux_eq_self c h]

theorem dropWhile_eq_self_of_all {p : Char → Bool} {l : List Char}
    (h : ∀ c ∈ l, p c = false) : l.dropWhile p = l := by
  cases l with
  | nil => rfl
  | cons c cs => rw [List.dropWhile_cons, if_neg (by simp [h c (by simp)])]

theorem trimSpace_eq_self {l : List Char} (h : ∀ c ∈ l, goIsSpace c = false) :
    trimSpace l = l := by
  unfold trimSpace
  rw [dropWhile_eq_self_of_all h]
  rw [dropWhile_eq_self_of_all (fun c hc => h c (List.mem_reverse.1 hc))]
  rw [List.reverse_reverse]

theorem head_dropWhile_dash {l : List Char} {x : Char}
    (h : (l.dropWhile (fun c => c = '-')).head? = some x) : ¬ x = '-' := by
  induction l with
  | nil => simp [List.dropWhile] at h
  | cons a t ih =>
    rw [List.dropWhile_cons] at h
    split at h
    · exact ih h
    · rename_i ha
      simp at h
      subst h
      simpa using ha

/-- Everything in a slug is in `[a-z0-9-]`. -/
theorem slugify_mem_allowed {s : List Char} {c : Char} (h : c ∈ slugify s) :
    allowedChar c = true := by
  unfold slugify trimDashes at h
  have h1 := List.take_subset _ _ h
  have h2 := mem_dropTrailingDashes h1
  have h3 := List.dropWhile_subset _ h2
  have h4 := mem_collapseDashes h3
  unfold replaceBad at h4
  rcases List.mem_map.1 h4 with ⟨d, _, hd⟩
  by_cases hall : allowedChar d = true
  · rw [if_pos hall] at hd
    rw [← hd]
    exact hall
  · rw [if_neg hall] at hd
    rw [← hd]
    decide

theorem slugify_noDD (s : List Char) : noDD (slugify s) := by
  unfold slugify trimDashes
  exact noDD_take _ (noDD_dropTrailingDashes
    (noDD_dropWhile _ _ (noDD_collapseDashes _))) 50

theorem slugify_head {s : List Char} {x : Char}
    (h : (slugify s).head? = some x) : ¬ x = '-' := by
  unfold slugify trimDashes at h
  rw [List.head?_take] at h
  simp only [OfNat.ofNat_ne_zero, if_false] at h
  cases hd : dropTrailingDashes
      ((collapseDashes (replaceBad (toLowerStr (trimSpace s)))).dropWhile
        (fun c => c = '-')) with
  | nil => rw [hd] at h; simp at h
  | cons y ys =>
    rw [hd] at h
    simp at h
    subst h
    obtain ⟨zs, hzs⟩ := dropTrailingDashes_head hd
    apply head_dropWhile_dash (l := collapseDashes (replaceBad (toLowerStr (trimSpace s))))
    rw [hzs]
    rfl

theorem slugify_length_le (s : List Char) : (slugify s).length ≤ 50 := by
  unfold slugify
  simpa using List.length_take_le 50 _

/-- C3, counterexample: a slug whose 50-byte truncation lands just after a
dash is not a fixed point — the second application strips the trailing dash
(50 characters become 49). -/
theorem c3_counterexample :
    slugify (slugify (s2l "a-a-a-a-a-a-a-a-a-a-a-a-a-a-a-a-a-a-a-a-a-a-a-a-a-a-")) ≠
      slugify (s2l "a-a-a-a-a-a-a-a-a-a-a-a-a-a-a-a-a-a-a-a-a-a-a-a-a-a-") := by
  decide

/-- C3 (amended): `Slugify` is idempotent on every input whose slug does not
end in '-'.  Slugs are at most 50 characters of `[a-z0-9-]` with no dash
runs and no leading dash, so only the truncation can create a trailing dash,
and that is the only obstruction to idempotence. -/
theorem c3_amended (s : List Char) (h : ¬ (slugify s).getLast? = some '-') :
    slugify (slugify s) = slugify s := by
  have hmem : ∀ c ∈ slugify s, allowedChar c = true := fun c hc => slugify_mem_allowed hc
  have hnodd : noDD (slugify s) := slugify_noDD s
  have hlen : (slugify s).length ≤ 50 := slugify_length_le s
  have htrim : trimSpace (slugify s) = slugify s :=
    trimSpace_eq_self (fun c hc => allowed_not_space (hmem c hc))
  have hlower : toLowerStr (slugify s) = slugify s :=
    map_id_on (fun c hc => allowed_toLower_fix (hmem c hc))
  have hreplace : replaceBad (slugify s) = slugify s :=
    map_id_on (fun c hc => by rw [if_pos (hmem c hc)])
  have hcollapse : collapseDashes (slugify s) = slugify s := collapseDashes_eq_self hnodd
  have hdw : (slugify s).dropWhile (fun c => c = '-') = slugify s := by
    cases hsl : slugify s with
    | nil => rfl
    | cons c cs =>
      have hc : ¬ c = '-' := slugify_head (s := s) (by rw [hsl]; rfl)
      rw [List.dropWhile_cons, if_neg (by simpa using hc)]
  have hdt : dropTrailingDashes (slugify s) = slugify s := dropTrailingDashes_eq_self h
  show (trimDashes (collapseDashes (replaceBad (toLowerStr (trimSpace (slugify s)))))).take 50
      = slugify s
  rw [htrim, hlower, hreplace, hcollapse]
  unfold trimDashes
  rw [hdw, hdt, List.take_of_length_le hlen]

/-- C3 witness: idempotence at a concrete input whose slug has no trailing
dash. -/
theorem c3_amended_witness :
    slugify (slugify (s2l "Hello, World!")) = slugify (s2l "Hello, World!") :=
  c3_amended (s2l "Hello, World!") (by decide)

/-! ## C4: the fact validator -/

/-- The claim's rejection condition, read literally: trimmed length counted
in *characters*. -/
abbrev rejectCondSpecChars (f : Fact) : Prop :=
  (trimSpace f.text).length < 3 ∨ 300 < (trimSpace f.text).length ∨
  ¬ validCategory f.category ∨ injectionMatch (trimSpace f.text) ∨
  f.salience < mkRat 1 100 ∨ 1 < f.salience

/-- The amended rejection condition: Go `len` counts UTF-8 *bytes*. -/
abbrev rejectCondBytes (f : Fact) : Prop :=
  utf8Len (trimSpace f.text) < 3 ∨ 300 < utf8Len (trimSpace f.text) ∨
  ¬ validCategory f.category ∨ injectionMatch (trimSpace f.text) ∨
  f.salience < mkRat 1 100 ∨ 1 < f.salience

/-- The side effects `ValidateFact` applies to a fact it accepts. -/
def applyValidation (f : Fact) : Fact :=
  { f with
    minTrust := if f.minTrust < 0 ∨ 10 < f.minTrust then 0 else f.minTrust,
    topics := f.topics.take 3 }

/-- C4, counterexample: the length check is on bytes, not characters.  The
two-character text "éé" is 4 UTF-8 bytes, so the code accepts it although
its trimmed text has fewer than 3 characters and the claim demands
rejection. -/
theorem c4_counterexample :
    ¬ (∀ f : Fact, validateFact (some f) = none ↔ rejectCondSpecChars f) := by
  intro h
  have h2 := (h ⟨s2l "éé", s2l "preference", s2l "x", [], mkRat 5 10, [], 0⟩).mpr
    (by left; decide)
  exact absurd h2 (by decide)

/-- C4 (amended): `ValidateFact` returns false exactly when the fact is
absent, or the trimmed text's UTF-8 *byte* length is outside [3, 300], or
the category is not one of the four allowed ones, or the trimmed text
matches the case-insensitive injection pattern, or the salience is outside
[0.01, 1.0]; when it returns true it has zeroed an out-of-range [0,10]
MinTrust and truncated Topics to the first 3. -/
theorem c4_amended (f : Option Fact) :
    validateFact f =
      (match f with
       | none => none
       | some f => if rejectCondBytes f then none else some (applyValidation f)) := by
  cases f with
  | none => rfl
  | some f =>
    simp only [validateFact, applyValidation]
    split_ifs <;> first | rfl | tauto

/-! ## C1: word-count lemmas for the chunker bound -/

theorem fieldsGo_space_absorb {g : List Char} (hg : ∀ c ∈ g, goIsSpace c = true)
    (b : List Char) : fieldsGo [] (g ++ b) = fieldsGo [] b := by
  induction g with
  | nil => rfl
  | cons s g' ih =>
    rw [List.cons_append, fieldsGo, if_pos (hg s (by simp)), if_pos rfl]
    exact ih (fun c hc => hg c (by simp [hc]))

theorem fieldsGo_append_space :
    ∀ (a cur : List Char) {g b : List Char},
      (∀ c ∈ g, goIsSpace c = true) → g ≠ [] →
      fieldsGo cur (a ++ g ++ b) = fieldsGo cur a ++ fieldsGo [] b := by
  intro a
  induction a with
  | nil =>
    intro cur g b hg hne
    cases g with
    | nil => exact absurd rfl hne
    | cons s g' =>
      have habs : fieldsGo [] (g' ++ b) = fieldsGo [] b :=
        fieldsGo_space_absorb (fun c hc => hg c (by simp [hc])) b
      by_cases hcur : cur = []
      · subst hcur
        simp [fieldsGo, hg s (by simp), habs]
      · simp [fieldsGo, hg s (by simp), hcur, habs]
  | cons c a ih =>
    intro cur g b hg hne
    by_cases hc : goIsSpace c = true
    · by_cases hcur : cur = []
      · subst hcur
        simp only [List.cons_append, fieldsGo, hc, if_true, if_pos rfl]
        exact ih [] hg hne
      · simp only [List.cons_append, fieldsGo, hc, if_true, if_neg hcur]
        show cur.reverse :: fieldsGo [] (a ++ g ++ b) =
          cur.reverse :: (fieldsGo [] a ++ fieldsGo [] b)
        rw [ih [] hg hne]
    · simp only [List.cons_append, fieldsGo, hc, if_false, Bool.false_eq_true]
      exact ih (c :: cur) hg hne

/-- Word counts add across an all-whitespace separator. -/
theorem wc_append_space {a g b : List Char} (hg : ∀ c ∈ g, goIsSpace c = true)
    (hne : g ≠ []) : wc (a ++ g ++ b) = wc a + wc b := by
  unfold wc fields
  rw [fieldsGo_append_space a [] hg hne, List.length_append]

theorem wc_append_single_space (a b : List Char) :
    wc (a ++ ' ' :: b) = wc a + wc b := by
  have h : a ++ ' ' :: b = a ++ [' '] ++ b := by simp
  rw [h, wc_append_space (g := [' ']) (by intro c hc; simp at hc; subst hc; rfl)
    (by simp)]

theorem wc_append_two_newlines (a b : List Char) :
    wc (a ++ '\n' :: '\n' :: b) = wc a + wc b := by
  have h : a ++ '\n' :: '\n' :: b = a ++ ['\n', '\n'] ++ b := by simp
  rw [h, wc_append_space (g := ['\n', '\n'])
    (by intro c hc; simp at hc; subst hc; rfl)
    (by simp)]

theorem fieldsGo_nonspace_run :
    ∀ (w cur rest : List Char), (∀ c ∈ w, goIsSpace c = false) →
      fieldsGo cur (w ++ rest) = fieldsGo (w.reverse ++ cur) rest := by
  intro w
  induction w with
  | nil => intro cur rest _; rfl
  | cons c w' ih =>
    intro cur rest hw
    rw [List.cons_append, fieldsGo, if_neg (by simp [hw c (by simp)]),
      ih (c :: cur) rest (fun d hd => hw d (by simp [hd]))]
    simp

/-- A non-empty run of non-space characters is a single word. -/
theorem wc_single_word {w : List Char} (hne : w ≠ [])
    (hw : ∀ c ∈ w, goIsSpace c = false) : wc w = 1 := by
  unfold wc fields
  have h := fieldsGo_nonspace_run w [] [] hw
  rw [List.append_nil] at h
  rw [h, List.append_nil, fieldsGo, if_neg (by simpa using hne)]
  rfl

/-- Every word `strings.Fields` produces is non-empty and space-free. -/
theorem fields_words_ok :
    ∀ (s cur : List Char), (∀ c ∈ cur, goIsSpace c = false) →
      ∀ w ∈ fieldsGo cur s, w ≠ [] ∧ ∀ c ∈ w, goIsSpace c = false := by
  intro s
  induction s with
  | nil =>
    intro cur hcur w hw
    rw [fieldsGo] at hw
    split at hw
    · simp at hw
    · rename_i hne
      simp at hw
      subst hw
      refine ⟨by simpa using hne, ?_⟩
      intro c hc
      exact hcur c (List.mem_reverse.1 hc)
  | cons c cs ih =>
    intro cur hcur w hw
    rw [fieldsGo] at hw
    split at hw
    · split at hw
      · exact ih [] (by simp) w hw
      · rename_i hne
        rcases List.mem_cons.1 hw with hw | hw
        · subst hw
          refine ⟨by simpa using hne, ?_⟩
          intro d hd
          exact hcur d (List.mem_reverse.1 hd)
        · exact ih [] (by simp) w hw
    · rename_i hc
      refine ih (c :: cur) ?_ w hw
      intro d hd
      rcases List.mem_cons.1 hd with hd | hd
      · subst hd
        simpa using hc
      · exact hcur d hd

/-- `joinSpace` over non-empty space-free words has one word per element. -/
theorem wc_joinSpace {ws : List (List Char)}
    (h : ∀ w ∈ ws, w ≠ [] ∧ ∀ c ∈ w, goIsSpace c = false) :
    wc (joinSpace ws) = ws.length := by
  induction ws with
  | nil => rfl
  | cons w ws' ih =>
    cases ws' with
    | nil =>
      show wc w = 1
      exact wc_single_word (h w (by simp)).1 (h w (by simp)).2
    | cons w2 ws'' =>
      show wc (w ++ ' ' :: joinSpace (w2 :: ws'')) = _
      rw [wc_append_single_space, ih (fun x hx => h x (by simp [List.mem_cons.1 hx]))]
      rw [wc_single_word (h w (by simp)).1 (h w (by simp)).2]
      simp only [List.length_cons]
      omega

/-- The overlap text is empty or has exactly `⌊ov·100/133⌋` words, a number
whose 1.33-scaling stays below the configured overlap. -/
theorem getOverlapText_wc (text : List Char) (ov : Nat) :
    getOverlapText text ov = [] ∨
      (wc (getOverlapText text ov) = ov * 100 / 133 ∧
        133 * (ov * 100 / 133) ≤ 100 * ov) := by
  simp only [getOverlapText]
  split
  · exact Or.inl rfl
  · rename_i hcond
    right
    constructor
    · rw [wc_joinSpace]
      · rw [List.length_drop]
        simp only [Bool.or_eq_true, decide_eq_true_eq, not_or, Nat.not_le] at hcond
        omega
      · intro w hw
        exact fields_words_ok text [] (by simp) w (List.mem_of_mem_drop hw)
    · omega

/-- The word count never exceeds the token estimate. -/
theorem wc_le_estimateTokens (s : List Char) : wc s ≤ estimateTokens s := by
  unfold estimateTokens
  split
  · rename_i h
    subst h
    rfl
  · show wc s ≤ if wc s * 133 / 100 < 1 then 1 else wc s * 133 / 100
    split <;> omega

/-- `133·wc(s) ≤ 100·estimateTokens(s) + 99`: the estimate under-counts by
less than one token. -/
theorem estimateTokens_lb (s : List Char) :
    133 * wc s ≤ 100 * estimateTokens s + 99 := by
  unfold estimateTokens
  split
  · rename_i h
    subst h
    decide
  · show 133 * wc s ≤ 100 * (if wc s * 133 / 100 < 1 then 1 else wc s * 133 / 100) + 99
    split <;> omega

/-- The emitted-chunk bound: `133·wc ≤ 200·T + 99` forces the estimate to at
most `2·T`. -/
theorem estimateTokens_le_two_mul {s : List Char} {T : Nat} (hT : 1 ≤ T)
    (h : 133 * wc s ≤ 200 * T + 99) : estimateTokens s ≤ 2 * T := by
  unfold estimateTokens
  split
  · omega
  · show (if wc s * 133 / 100 < 1 then 1 else wc s * 133 / 100) ≤ 2 * T
    split <;> omega

/-- Invariant of the sentence-level greedy loop: provided the overlap budget
is at most the chunk size and every sentence fits in the chunk size, every
flushed buffer `out` satisfies `133·wc(out) ≤ 200·T + 99`, hence
`estimateTokens out ≤ 2·T`. -/
theorem sentGo_bound (T ov : Nat) (hov : ov ≤ T) :
    ∀ ss : List (List Char), (∀ s ∈ ss, estimateTokens s ≤ T) →
    ∀ (cur : List Char) (tok : Nat),
      wc cur ≤ tok → 133 * wc cur ≤ 200 * T + 99 → (cur = [] → tok = 0) →
      ∀ out ∈ sentGo T ov ss cur tok, 133 * wc out ≤ 200 * T + 99 := by
  intro ss
  induction ss with
  | nil =>
    intro _ cur tok _ h2 _ out hout
    simp only [sentGo] at hout
    split at hout
    · simp at hout
      subst hout
      exact h2
    · simp at hout
  | cons sent rest ih =>
    intro hs cur tok h1 h2 h3 out hout
    have hsent : estimateTokens sent ≤ T := hs sent (by simp)
    have hrest : ∀ s ∈ rest, estimateTokens s ≤ T := fun s h => hs s (by simp [h])
    have hlbs := estimateTokens_lb sent
    have hwls := wc_le_estimateTokens sent
    simp only [sentGo] at hout
    split at hout
    · -- flush branch
      rcases List.mem_cons.1 hout with hout | hout
      · subst hout
        exact h2
      · by_cases hove : getOverlapText cur ov = []
        · rw [if_pos hove, hove] at hout
          refine ih hrest sent _ ?_ ?_ ?_ out hout
          · have h0 : estimateTokens ([] : List Char) = 0 := rfl
            omega
          · omega
          · intro hsn
            subst hsn
            decide
        · rw [if_neg hove] at hout
          rcases getOverlapText_wc cur ov with hcase | ⟨hVwc, hVle⟩
          · exact absurd hcase hove
          · refine ih hrest _ _ ?_ ?_ ?_ out hout
            · rw [wc_append_single_space]
              have := wc_le_estimateTokens (getOverlapText cur ov)
              omega
            · rw [wc_append_single_space]
              rw [hVwc] at *
              omega
            · intro hcon
              exact absurd hcon (by simp)
    · -- accumulate branch
      rename_i hcond
      rw [Decidable.not_and_iff_or_not] at hcond
      by_cases hce : cur = []
      · rw [if_pos hce] at hout
        subst hce
        refine ih hrest sent _ (by omega) ?_ ?_ out hout
        · omega
        · intro hsn
          subst hsn
          rw [h3 rfl]
          decide
      · rw [if_neg hce] at hout
        refine ih hrest _ _ ?_ ?_ ?_ out hout
        · rw [wc_append_single_space]
          omega
        · rw [wc_append_single_space]
          rcases hcond with hA | hB
          · have hA' : tok + estimateTokens sent ≤ T := by omega
            omega
          · have hB' : tok = 0 := by omega
            have : wc cur = 0 := by omega
            omega
        · intro hcon
          exact absurd hcon (by simp)

/-- The sentence-level splitter only emits pieces within the 2·T bound. -/
theorem splitBySentences_bound (text : List Char) (T ov : Nat) (hov : ov ≤ T)
    (hfit : ∀ s ∈ splitSentences text, estimateTokens s ≤ T) :
    ∀ out ∈ splitBySentences text T ov, 133 * wc out ≤ 200 * T + 99 := by
  intro out hout
  refine sentGo_bound T ov hov (splitSentences text) hfit [] 0 ?_ ?_ ?_ out hout
  · decide
  · have h0 : wc ([] : List Char) = 0 := rfl
    omega
  · intro _; rfl

/-- Invariant of the paragraph-level greedy loop: oversized paragraphs are
diverted to the sentence splitter, accumulated paragraphs fit by the branch
test, so with the overlap budget at most T and all sentences fitting, every
emitted piece satisfies the `133·wc ≤ 200·T + 99` bound. -/
theorem paraGo_bound (T ov : Nat) (hov : ov ≤ T) :
    ∀ ps : List (List Char), (∀ p ∈ ps, ∀ s ∈ splitSentences p, estimateTokens s ≤ T) →
    ∀ (cur : List Char) (tok : Nat),
      wc cur ≤ tok → 133 * wc cur ≤ 200 * T + 99 → (cur = [] → tok = 0) →
      ∀ out ∈ paraGo T ov ps cur tok, 133 * wc out ≤ 200 * T + 99 := by
  intro ps
  induction ps with
  | nil =>
    intro _ cur tok _ h2 _ out hout
    simp only [paraGo] at hout
    split at hout
    · simp at hout
      subst hout
      exact h2
    · simp at hout
  | cons para rest ih =>
    intro hp cur tok h1 h2 h3 out hout
    have hpsent : ∀ s ∈ splitSentences para, estimateTokens s ≤ T :=
      hp para (by simp)
    have hrest : ∀ p ∈ rest, ∀ s ∈ splitSentences p, estimateTokens s ≤ T :=
      fun p h => hp p (by simp [h])
    have hlbp := estimateTokens_lb para
    have hwlp := wc_le_estimateTokens para
    simp only [paraGo] at hout
    split at hout
    · -- oversized paragraph: flush, sentence-split, restart
      rcases List.mem_append.1 hout with hout | hout
      · rcases List.mem_append.1 hout with hout | hout
        · split at hout
          · simp at hout
            subst hout
            exact h2
          · simp at hout
        · exact splitBySentences_bound para T ov hov hpsent out hout
      · refine ih hrest [] 0 ?_ ?_ ?_ out hout
        · decide
        · have h0 : wc ([] : List Char) = 0 := rfl
          omega
        · intro _; rfl
    · rename_i hbig
      have hpara : estimateTokens para ≤ T := by omega
      split at hout
      · -- flush with overlap
        rcases List.mem_cons.1 hout with hout | hout
        · subst hout
          exact h2
        · by_cases hove : getOverlapText cur ov = []
          · rw [if_pos hove, hove] at hout
            refine ih hrest para _ ?_ ?_ ?_ out hout
            · have h0 : estimateTokens ([] : List Char) = 0 := rfl
              omega
            · omega
            · intro hsn
              subst hsn
              decide
          · rw [if_neg hove] at hout
            rcases getOverlapText_wc cur ov with hcase | ⟨hVwc, hVle⟩
            · exact absurd hcase hove
            · refine ih hrest _ _ ?_ ?_ ?_ out hout
              · rw [wc_append_two_newlines]
                have := wc_le_estimateTokens (getOverlapText cur ov)
                omega
              · rw [wc_append_two_newlines]
                rw [hVwc] at *
                omega
              · intro hcon
                exact absurd hcon (by simp)
      · -- accumulate
        rename_i hcond
        rw [Decidable.not_and_iff_or_not] at hcond
        by_cases hce : cur = []
        · rw [if_pos hce] at hout
          subst hce
          refine ih hrest para _ (by omega) ?_ ?_ out hout
          · omega
          · intro hsn
            subst hsn
            rw [h3 rfl]
            decide
        · rw [if_neg hce] at hout
          refine ih hrest _ _ ?_ ?_ ?_ out hout
          · rw [wc_append_two_newlines]
            omega
          · rw [wc_append_two_newlines]
            rcases hcond with hA | hB
            · have hA' : tok + estimateTokens para ≤ T := by omega
              omega
            · have hB' : tok = 0 := by omega
              have : wc cur = 0 := by omega
              omega
          · intro hcon
            exact absurd hcon (by simp)

/-- Every piece `splitText` emits respects the word-count bound. -/
theorem splitText_bound (text : List Char) (T ov : Nat) (hov : ov ≤ T)
    (hfit : ∀ p ∈ splitByParagraphs text, ∀ s ∈ splitSentences p,
      estimateTokens s ≤ T) :
    ∀ out ∈ splitText text T ov, 133 * wc out ≤ 200 * T + 99 := by
  intro out hout
  refine paraGo_bound T ov hov (splitByParagraphs text) hfit [] 0 ?_ ?_ ?_ out hout
  · decide
  · have h0 : wc ([] : List Char) = 0 := rfl
    omega
  · intro _; rfl

/-- Hypothesis of the amended C1: every sentence of every paragraph of a
node's text fits in the chunk size on its own. -/
def sentencesFit (T : Nat) (text : List Char) : Bool :=
  (splitByParagraphs text).all
    (fun p => (splitSentences p).all (fun s => estimateTokens s ≤ T))

mutual

def nodeOk (T : Nat) : DocNode → Bool
  | .mk _ text _ children => sentencesFit T text && nodesOk T children

def nodesOk (T : Nat) : List DocNode → Bool
  | [] => true
  | n :: ns => nodeOk T n && nodesOk T ns

end

theorem emitParts_text_mem :
    ∀ (parts : List (List Char)) (mc : Nat) (bc : List (List Char)) (page : Int)
      (idx : Nat) (c : Chunk),
      c ∈ (emitParts mc bc page parts idx).1 → c.text ∈ parts := by
  intro parts
  induction parts with
  | nil =>
    intro mc bc page idx c hc
    simp [emitParts] at hc
  | cons part rest ih =>
    intro mc bc page idx c hc
    rw [emitParts] at hc
    split at hc
    · rcases List.mem_cons.1 hc with hc | hc
      · subst hc
        simp
      · exact List.mem_cons_of_mem _ (ih mc bc page (idx + 1) c hc)
    · exact List.mem_cons_of_mem _ (ih mc bc page idx c hc)

/-- The tree walk only emits chunks whose estimate is at most `2·T`, by
strong induction on the size of the sibling list. -/
theorem walkNodes_bound :
    ∀ (k T ov mc : Nat), 1 ≤ T → ov ≤ T →
      ∀ ns : List DocNode, sizeOf ns ≤ k → nodesOk T ns = true →
      ∀ (bc : List (List Char)) (idx : Nat),
        ∀ c ∈ (walkNodes T ov mc ns bc idx).1, estimateTokens c.text ≤ 2 * T := by
  intro k
  induction k using Nat.strong_induction_on with
  | _ k ihk =>
  intro T ov mc hT hov ns hsize hok bc idx c hc
  cases ns with
  | nil => simp [walkNodes] at hc
  | cons n rest =>
    have hok1 : nodeOk T n = true ∧ nodesOk T rest = true := by
      rw [nodesOk, Bool.and_eq_true] at hok
      exact hok
    rw [walkNodes] at hc
    rcases List.mem_append.1 hc with hc | hc
    · cases n with
      | mk title text page children =>
        have hok2 : sentencesFit T text = true ∧ nodesOk T children = true := by
          rw [nodeOk, Bool.and_eq_true] at hok1
          exact ⟨hok1.1.1, hok1.1.2⟩
        simp only [walkNode] at hc
        rcases List.mem_append.1 hc with hc | hc
        · -- own chunks of this node
          by_cases htxt : text = []
          · rw [if_pos htxt] at hc
            simp at hc
          · rw [if_neg htxt] at hc
            by_cases htok : estimateTokens text ≤ T
            · rw [if_pos htok] at hc
              split at hc
              · simp at hc
                subst hc
                show estimateTokens text ≤ 2 * T
                omega
              · simp at hc
            · rw [if_neg htok] at hc
              have hmem := emitParts_text_mem _ _ _ _ _ _ hc
              have hfit : ∀ p ∈ splitByParagraphs text, ∀ s ∈ splitSentences p,
                  estimateTokens s ≤ T := by
                intro p hp s hs
                have h1 := (List.all_eq_true.1 hok2.1) p hp
                have h2 := (List.all_eq_true.1 h1) s hs
                simpa using h2
              exact estimateTokens_le_two_mul hT
                (splitText_bound text T ov hov hfit c.text hmem)
        · -- chunks of this node's children
          have hlt : sizeOf children < k := by
            have h1 : sizeOf children < sizeOf (DocNode.mk title text page children) := by
              rw [DocNode.mk.sizeOf_spec]
              omega
            have h2 : sizeOf (DocNode.mk title text page children) <
                sizeOf (DocNode.mk title text page children :: rest) := by
              rw [List.cons.sizeOf_spec]
              omega
            omega
          exact ihk (sizeOf children) hlt T ov mc hT hov children le_rfl hok2.2 _ _ c hc
    · -- chunks of the remaining siblings
      have hlt : sizeOf rest < k := by
        have h2 : sizeOf rest < sizeOf (n :: rest) := by
          rw [List.cons.sizeOf_spec]
          omega
        omega
      exact ihk (sizeOf rest) hlt T ov mc hT hov rest le_rfl hok1.2 _ _ c hc

/-- C1, counterexample: a single sentence with no internal '. ' boundary is
passed through the sentence splitter whole, so one 10-word node under
`chunkSize = 1` (all config fields positive) yields a chunk whose estimate,
13, exceeds `2·chunkSize = 2`. -/
theorem c1_counterexample :
    ∃ c ∈ chunkTree
        ⟨s2l "T", [DocNode.mk [] (s2l "w w w w w w w w w w") 0 []]⟩
        (ChunkConfig.mk 1 1 1),
      2 * (ChunkConfig.mk 1 1 1).chunkSize.toNat < estimateTokens c.text := by
  decide

/-- C1 (amended): for every tree and config with positive fields, if the
overlap budget is at most the chunk size and every sentence of every
paragraph of every node's text fits in the chunk size on its own, then every
chunk emitted by `ChunkTree` — including those produced by the sentence-level
split — satisfies `estimateTokens(text) ≤ 2·chunkSize`.  Without the sentence
condition a single oversized sentence is emitted whole and breaks the bound;
without the overlap condition the seeded tail overlap can push a buffer past
it. -/
theorem c1_amended (tree : DocTree) (cfg : ChunkConfig)
    (h1 : 0 < cfg.chunkSize) (h2 : 0 < cfg.chunkOverlap) (h3 : 0 < cfg.minChunk)
    (hov : cfg.chunkOverlap ≤ cfg.chunkSize)
    (hfit : nodesOk cfg.chunkSize.toNat tree.children = true) :
    ∀ c ∈ chunkTree tree cfg, estimateTokens c.text ≤ 2 * cfg.chunkSize.toNat := by
  intro c hc
  unfold chunkTree at hc
  have hns : normChunkSize cfg = cfg.chunkSize.toNat := by
    unfold normChunkSize
    rw [if_neg (by omega)]
  have hno : normChunkOverlap cfg = cfg.chunkOverlap.toNat := by
    unfold normChunkOverlap
    rw [if_neg (by omega)]
  rw [hns, hno] at hc
  exact walkNodes_bound (sizeOf tree.children) _ _ _ (by omega) (by omega)
    tree.children le_rfl hfit [] 0 c hc

/-- C1 witness: the amended bound at a concrete two-sentence document with
`chunkSize = 3`, `chunkOverlap = 2`, `minChunk = 1`. -/
theorem c1_amended_witness :
    estimateTokens (Chunk.mk (s2l "Hello world.") 0 [s2l "A"] 0 0).text ≤
      2 * (ChunkConfig.mk 3 2 1).chunkSize.toNat :=
  c1_amended ⟨s2l "T", [DocNode.mk (s2l "A") (s2l "Hello world. Bye now.") 0 []]⟩
    (ChunkConfig.mk 3 2 1) (by decide) (by decide) (by decide) (by decide) (by decide)
    (Chunk.mk (s2l "Hello world.") 0 [s2l "A"] 0 0) (by decide)

end Docgest
